import Mathlib

/-!
# Verification of the MemoryCache page-granularity read-through cache

Shallow embedding of `src/extensions/memorycache/memorycache.js`.

Addresses are natural numbers.  The remote memory source is modelled as a
byte oracle `mem : Nat → Nat`.  JavaScript typed arrays read the raw byte
order of the arriving buffer; we model them little-endian byte-for-byte, and
model float elements by their raw bit pattern (the code never converts or
inspects element values, it only copies and forwards them).
-/

namespace MemoryCache

/-- `PAGE_SIZE`: the cacheable unit size (memorycache.js line 4). -/
def PAGE_SIZE : Nat := 4096

/-- `RETRIEVAL_SIZE`: element size the page fetch is broken into (line 5). -/
def RETRIEVAL_SIZE : Nat := 4

/-- `CACHE_TRIGGER`: hits required on a page before caching (line 6). -/
def CACHE_TRIGGER : Nat := 1

/-- The typed-array constructors that can appear in the viewer tables.
Each constructor fixes an element size and a decode rule. -/
inductive ViewKind where
  | f32 | f64 | u8 | u16 | u32 | i8 | i16 | i32
deriving DecidableEq

/-- Element size in bytes of each typed-array kind. -/
def ViewKind.size : ViewKind → Nat
  | .f32 => 4
  | .f64 => 8
  | .u8 => 1
  | .u16 => 2
  | .u32 => 4
  | .i8 => 1
  | .i16 => 2
  | .i32 => 4

/-- `const floatArrays = [Float32Array, Float64Array]` (line 41). -/
def floatArrays : List (Option ViewKind) := [some .f32, some .f64]

/-- `const unsignedArrays = [Uint8Array, Uint16Array, null, Uint32Array, null, null, null, null]`
(line 42).  Note the `null` entries: 3-byte and 5..8-byte integers are unsupported. -/
def unsignedArrays : List (Option ViewKind) :=
  [some .u8, some .u16, none, some .u32, none, none, none, none]

/-- `const signedArrays = [Int8Array, Int16Array, null, Int32Array, null, null, null, null]`
(line 43). -/
def signedArrays : List (Option ViewKind) :=
  [some .i8, some .i16, none, some .i32, none, none, none, none]

/-- `getArrayViewer(size, isUnsigned, isFloat)` (lines 45-53).
In JavaScript, indexing an array with a negative or fractional index yields
`undefined`; `List.getD _ _ none` together with the guards models both that and
the explicit `null` entries (both are `== null`). -/
def getArrayViewer (size : Nat) (isUnsigned isFloat : Bool) : Option ViewKind :=
  if isFloat then
    if 4 ≤ size ∧ size % 4 = 0 then floatArrays.getD (size / 4 - 1) none else none
  else if isUnsigned then
    if 1 ≤ size then unsignedArrays.getD (size - 1) none else none
  else
    if 1 ≤ size then signedArrays.getD (size - 1) none else none

/-- Little-endian byte-list decoding (how a typed array reads a buffer). -/
def leDecode : List Nat → Nat
  | [] => 0
  | b :: bs => b + 256 * leDecode bs

/-- Little-endian encoding of a value into `n` bytes (how a typed-array store
writes a buffer; truncation mod 2^(8n) matches the JS ToUint32-style coercion). -/
def leEncode : Nat → Nat → List Nat
  | 0, _ => []
  | n + 1, v => v % 256 :: leEncode n (v / 256)

/-- Two's-complement reinterpretation of an unsigned value of `bits` bits. -/
def toSigned (bits : Nat) (v : Nat) : Int :=
  if v < 2 ^ (bits - 1) then (v : Int) else (v : Int) - 2 ^ bits

/-- Element decode of each typed-array kind from its `size` bytes.
Floats are modelled by their raw (little-endian) bit pattern: the cache never
interprets element values, it only stores and forwards them. -/
def ViewKind.decode : ViewKind → List Nat → Int
  | .u8, bs => leDecode bs
  | .u16, bs => leDecode bs
  | .u32, bs => leDecode bs
  | .i8, bs => toSigned 8 (leDecode bs)
  | .i16, bs => toSigned 16 (leDecode bs)
  | .i32, bs => toSigned 32 (leDecode bs)
  | .f32, bs => leDecode bs
  | .f64, bs => leDecode bs

/-- `view.length` of a typed array of kind `k` over a buffer `b`. -/
def viewLength (k : ViewKind) (b : List Nat) : Nat := b.length / k.size

/-- `view[i]` of a typed array of kind `k` over a buffer `b`. -/
def viewGet (k : ViewKind) (b : List Nat) (i : Nat) : Int :=
  k.decode ((b.drop (i * k.size)).take k.size)

/-- The full element sequence of a typed array of kind `k` over buffer `b`. -/
def viewElems (k : ViewKind) (b : List Nat) : List Int :=
  (List.range (viewLength k b)).map (viewGet k b)

/-- What `cacheEntry.memory` holds once set: either the stored error result
object, or the page's `ArrayBuffer` (a byte buffer). -/
inductive Mem where
  | err (e : Nat)
  | buf (bytes : List Nat)
deriving DecidableEq

/-- What a waiter's callback receives from `memoryCallback` (lines 65-71):
the error result unchanged, or `new viewer(memory)` — a typed view over the
buffer with the waiter's own element kind. -/
inductive View where
  | err (e : Nat)
  | view (k : ViewKind) (bytes : List Nat)
deriving DecidableEq

/-- `memoryCallback` (lines 65-71): pass an error through, wrap bytes in the
caller's typed view. -/
def mkView (k : ViewKind) : Mem → View
  | .err e => .err e
  | .buf bs => .view k bs

/-- One cache entry (lines 21-27).  The JS object also carries an `error`
field that is initialized to `null` and never written; we omit it. -/
structure CacheEntry where
  hits : Nat
  memory : Option Mem
  inflight : Bool
  callbacks : List (Nat × ViewKind)
deriving DecidableEq

/-- The zeroed entry `getCacheEntry` creates on first touch (lines 21-27). -/
def freshEntry : CacheEntry := ⟨0, none, false, []⟩

/-- Observable actions of one `loadPage` call or fetch completion:
issuing the full-page fetch, or invoking a waiter's callback with a view. -/
inductive LoadEvent where
  | fetch
  | notify (w : Nat) (v : View)
deriving DecidableEq

/-- Result of one `loadPage` call on one entry: the returned admission
boolean, the updated entry, and the emitted events. -/
structure LoadResult where
  accepted : Bool
  entry : CacheEntry
  events : List LoadEvent
deriving DecidableEq

/-- `loadPage(page, viewer, callback)` (lines 55-109), acting on the page's
entry.  Waiters are identified by a number `w`; the stored callback pair
`(w, k)` records which waiter and which element kind its `memoryCallback`
closure captured.  Branches in source order: unsupported viewer declines
before any cache access; hits are incremented; then cached-memory,
trigger, inflight, and decline branches. -/
def loadPageEntry (viewer : Option ViewKind) (w : Nat) (e : CacheEntry) : LoadResult :=
  match viewer with
  | none => ⟨false, e, []⟩
  | some k =>
    let e1 : CacheEntry := { e with hits := e.hits + 1 }
    match e1.memory with
    | some m => ⟨true, e1, [.notify w (mkView k m)]⟩
    | none =>
      if e1.hits = CACHE_TRIGGER then
        ⟨true, { e1 with inflight := true, callbacks := e1.callbacks ++ [(w, k)] }, [.fetch]⟩
      else if e1.inflight then
        ⟨true, { e1 with callbacks := e1.callbacks ++ [(w, k)] }, []⟩
      else
        ⟨false, e1, []⟩

/-- What the remote source's continuation receives for the page fetch
(`JsDbg.ReadArray` result): an error payload or the array of
`PAGE_SIZE / RETRIEVAL_SIZE` unsigned values. -/
inductive ReadResult where
  | error (e : Nat)
  | array (vals : List Nat)
deriving DecidableEq

/-- Lines 87-92: allocate a page-sized `ArrayBuffer` and copy the retrieved
elements into it through a `Uint32Array` view, byte for byte.  A missing
element (`undefined`) coerces to 0; values are truncated mod 2^32 by the
store, which `leEncode` performs bytewise. -/
def pageBufferOfArray (vals : List Nat) : List Nat :=
  ((List.range (PAGE_SIZE / RETRIEVAL_SIZE)).map
    (fun i => leEncode RETRIEVAL_SIZE (vals.getD i 0))).flatten

/-- The value `cacheEntry.memory` ends with after the fetch completion
callback (lines 82-93). -/
def finalMem : ReadResult → Mem
  | .error e => .err e
  | .array vals => .buf (pageBufferOfArray vals)

/-- The fetch-completion continuation (lines 82-98): store the error or the
copied buffer (on error, `inflight` is left as-is — only the success branch
clears it), notify every queued waiter with the final state in enqueue
order, then empty the queue. -/
def completeFetch (r : ReadResult) (e : CacheEntry) : CacheEntry × List LoadEvent :=
  ({ hits := e.hits
     memory := some (finalMem r)
     inflight := match r with
       | .error _ => e.inflight
       | .array _ => false
     callbacks := [] },
   e.callbacks.map fun wk => LoadEvent.notify wk.1 (mkView wk.2 (finalMem r)))

/-- `getPage(address)` (lines 33-35): clear the low bits. -/
def getPage (address : Nat) : Nat := address - address % PAGE_SIZE

/-- `getOffset(address, size)` (lines 37-39): intra-page element offset,
truncating division. -/
def getOffset (address size : Nat) : Nat := address % PAGE_SIZE / size

/-- The `while (currentPage.lt(lastAddress))` loop of `calculatePagesForArray`
(lines 146-151), with an explicit fuel.  The loop terminates because
`currentPage` grows by `PAGE_SIZE ≥ 1` each iteration, so a fuel of
`lastAddress - currentPage` always suffices; structural recursion on the fuel
keeps the definition computable by the kernel. -/
def calcPagesGo : Nat → Nat → Nat → List Nat
  | 0, _, _ => []
  | fuel + 1, currentPage, lastAddress =>
    if currentPage < lastAddress then
      currentPage :: calcPagesGo fuel (currentPage + PAGE_SIZE) lastAddress
    else []

/-- `calculatePagesForArray(address, itemSize, count)` (lines 143-154); the
loop's `lastAddress` is `address + itemSize * count`. -/
def calculatePagesForArray (address itemSize count : Nat) : List Nat :=
  calcPagesGo (address + itemSize * count - getPage address) (getPage address)
    (address + itemSize * count)

/-- The cache (line 11): page base address to entry.  `getCacheEntry`
creates a zeroed entry on first access, so the map is semantically total
with default `freshEntry`. -/
abbrev Cache := Nat → CacheEntry

/-- The empty cache. -/
def freshCache : Cache := fun _ => freshEntry

/-- Store an updated entry back under its page key. -/
def updateCache (c : Cache) (p : Nat) (e : CacheEntry) : Cache :=
  fun q => if q = p then e else c q

/-- Module-level mutable state (lines 8-11): the lazily resolved pointer
size and the cache. -/
structure GlobalState where
  pointerSize : Option Nat
  cache : Cache

/-- `clearCache()` (lines 13-15): discard every entry; `pointerSize` is not
touched. -/
def clearCache (g : GlobalState) : GlobalState :=
  { g with cache := freshCache }

/-- `readPointer` pointer-width resolution (lines 111-124): if the width is
unknown, query the remote source (whose reply is `remote`), cache it and
retry; otherwise use the cached width.  Returns the updated state and the
width used for the retried/underlying `readNumber`. -/
def readPointerResolve (g : GlobalState) (remote : Nat) : GlobalState × Nat :=
  match g.pointerSize with
  | none => ({ g with pointerSize := some remote }, remote)
  | some n => (g, n)

/-- Loop state of the assembly `forEach` in `readArray` (lines 185-207). -/
structure AsmState where
  result : List Int
  idx : Nat
  firstError : Option Nat
deriving DecidableEq

/-- One iteration of the assembly `forEach` (lines 190-207): skip once an
error was seen, record the first error, otherwise gather elements from the
current view starting at `idx` up to the remaining count or the view's
capacity, and reset `idx` to 0 for the next page. -/
def asmStep (count : Nat) (s : AsmState) (v : View) : AsmState :=
  if s.firstError.isSome then s
  else
    match v with
    | .err e => { s with firstError := some e }
    | .view k b =>
      let remaining := count - s.result.length
      let last := min (s.idx + remaining) (viewLength k b)
      { result := s.result ++ (List.range (last - s.idx)).map (fun j => viewGet k b (s.idx + j))
        idx := 0
        firstError := none }

/-- What `readArray`'s continuation delivers to the caller. -/
inductive ArrayOutcome where
  | error (e : Nat)
  | array (vals : List Int)
deriving DecidableEq

/-- The assembly continuation of `readArray` (lines 183-213): fold the views
in address order, then report the first error or the gathered array. -/
def assembleViews (count off : Nat) (views : List View) : ArrayOutcome :=
  let s := views.foldl (asmStep count) ⟨[], off, none⟩
  match s.firstError with
  | some e => .error e
  | none => .array s.result

/-- Observable actions of the array-read path: a full-page fetch issued for
a page, or the assembly continuation firing with its outcome. -/
inductive ArrEvent where
  | fetch (page : Nat)
  | result (r : ArrayOutcome)
deriving DecidableEq

/-- State shared by `requestPages` and its `pageLoaded` closures (lines
156-176): the cache, `loadedViews`, `remainingViews`, `areAllPagesEligible`,
plus the trace of emitted events. -/
structure ReqState where
  cache : Cache
  loaded : List (Option View)
  remaining : Nat
  eligible : Bool
  events : List ArrEvent

/-- Extract `loadedViews` for the assembly callback; when it fires every slot
has been filled, so the default is never read. -/
def extractViews (l : List (Option View)) : List View :=
  l.map fun o => o.getD (View.err 0)

/-- `pageLoaded(view)` for page index `i` (lines 163-169): record the view,
decrement the remaining count, and fire the assembly continuation when all
pages have arrived and every page was eligible. -/
def deliverView (count off i : Nat) (v : View) (s : ReqState) : ReqState :=
  let loaded := s.loaded.set i (some v)
  let remaining := s.remaining - 1
  { s with
    loaded := loaded
    remaining := remaining
    events :=
      if remaining = 0 ∧ s.eligible = true then
        s.events ++ [.result (assembleViews count off (extractViews loaded))]
      else s.events }

/-- Route the events of one `loadPage` call: a fetch is recorded against its
page; a synchronous notification is the `pageLoaded` closure running. -/
def applyLoadEvents (count off page : Nat) (evs : List LoadEvent) (s : ReqState) : ReqState :=
  evs.foldl
    (fun st ev =>
      match ev with
      | .fetch => { st with events := st.events ++ [.fetch page] }
      | .notify j v => deliverView count off j v st)
    s

/-- Processing of one page inside `requestPages`' `forEach` (lines 162-174):
admit the page with this read's `pageLoaded` closure (waiter id = page
index), record ineligibility on decline, and run any synchronous events. -/
def processPage (count off : Nat) (viewer : Option ViewKind) (s : ReqState)
    (i page : Nat) : ReqState :=
  applyLoadEvents count off page (loadPageEntry viewer i (s.cache page)).events
    { s with
      cache := updateCache s.cache page (loadPageEntry viewer i (s.cache page)).entry
      eligible := s.eligible && (loadPageEntry viewer i (s.cache page)).accepted }

/-- `requestPages(pages, viewer, callback)` (lines 156-176). -/
def requestPagesModel (count off : Nat) (viewer : Option ViewKind) (pages : List Nat)
    (c : Cache) : ReqState :=
  pages.enum.foldl (fun s ip => processPage count off viewer s ip.1 ip.2)
    ⟨c, List.replicate pages.length none, pages.length, true, []⟩

/-- Outcome of the synchronous part of `readArray` (lines 178-220): the
request state and the single uncached fallback read
`(address, itemSize, count)` issued when any page was declined. -/
structure ReadArrayOut where
  req : ReqState
  uncached : Option (Nat × Nat × Nat)

/-- The `requestPages` invocation made by `readArray` (lines 181-183):
viewer from the caller's element kind, pages spanning the array, first-page
offset from the address. -/
def readArrayReq (a itemSize : Nat) (isUnsigned isFloat : Bool) (count : Nat)
    (c : Cache) : ReqState :=
  requestPagesModel count (getOffset a itemSize)
    (getArrayViewer itemSize isUnsigned isFloat)
    (calculatePagesForArray a itemSize count) c

/-- `readArray(address, itemSize, isUnsigned, isFloat, count, callback)`
(lines 178-220), synchronous part. -/
def readArrayModel (a itemSize : Nat) (isUnsigned isFloat : Bool) (count : Nat)
    (c : Cache) : ReadArrayOut :=
  ⟨readArrayReq a itemSize isUnsigned isFloat count c,
   if (readArrayReq a itemSize isUnsigned isFloat count c).eligible then none
   else some (a, itemSize, count)⟩

/-- Run queued notifications against the read's `pageLoaded` closures
(the asynchronous completions arriving after `requestPages` returned). -/
def applyNotifyList (count off : Nat) (evs : List LoadEvent) (s : ReqState) : ReqState :=
  evs.foldl
    (fun st ev =>
      match ev with
      | .fetch => st
      | .notify j v => deliverView count off j v st)
    s

/-- An asynchronous page-fetch completion arriving for `page` while this
array read is outstanding: complete the entry and run the notifications. -/
def completePageFetch (count off page : Nat) (r : ReadResult) (s : ReqState) : ReqState :=
  applyNotifyList count off (completeFetch r (s.cache page)).2
    { s with cache := updateCache s.cache page (completeFetch r (s.cache page)).1 }

/-- The assembly-continuation outcomes among a trace of events. -/
def resultsOf (evs : List ArrEvent) : List ArrayOutcome :=
  evs.filterMap fun ev =>
    match ev with
    | .result r => some r
    | .fetch _ => none

/-- One step of a sequence of `loadPage` calls against one page's entry:
run the call and append its events to the trace. -/
def loadSeqStep (acc : CacheEntry × List LoadEvent) (wk : Nat × ViewKind) :
    CacheEntry × List LoadEvent :=
  let r := loadPageEntry (some wk.2) wk.1 acc.1
  (r.entry, acc.2 ++ r.events)

/-- A sequence of `loadPage` calls against one page's entry, accumulating
events: models any number of reads of that page arriving in order. -/
def loadSeq (ws : List (Nat × ViewKind)) (e : CacheEntry) : CacheEntry × List LoadEvent :=
  ws.foldl loadSeqStep (e, [])

/-- Number of remote page fetches among a trace of entry-level events. -/
def fetchCount (evs : List LoadEvent) : Nat :=
  (evs.filter fun ev =>
    match ev with
    | .fetch => true
    | .notify _ _ => false).length

/-- The first error among the delivered page views, in address order. -/
def firstErrOf (views : List View) : Option Nat :=
  views.findSome? fun v =>
    match v with
    | .err e => some e
    | .view _ _ => none

/-- Modelled from the spec: `JsDbg.ReadArray` / RemoteMemorySource
`readArrayAsync(address, elementSize, isUnsigned, isFloat, count, continuation)`
is external to this repository; its continuation receives a sequence of
numeric values, which over a byte oracle `mem` is the little-endian decoding
of each element's bytes. -/
def jsDbgReadArray (mem : Nat → Nat) (addr size count : Nat) : List Nat :=
  (List.range count).map fun i =>
    leDecode ((List.range size).map fun j => mem (addr + size * i + j))

/-- A single unsigned 32-bit remote read at `addr` over the byte oracle. -/
def remoteU32 (mem : Nat → Nat) (addr : Nat) : Nat :=
  leDecode ((List.range RETRIEVAL_SIZE).map fun j => mem (addr + j))

/-- The page fetch `JsDbg.ReadArray(page, RETRIEVAL_SIZE, true, false,
PAGE_SIZE / RETRIEVAL_SIZE, ...)` issued by `loadPage` (line 81). -/
def remotePageFetch (mem : Nat → Nat) (page : Nat) : List Nat :=
  jsDbgReadArray mem page RETRIEVAL_SIZE (PAGE_SIZE / RETRIEVAL_SIZE)

/-- The view a caller with kind `k` receives for `page` once its fetch
completed successfully against the byte oracle `mem`. -/
def fetchedPageView (mem : Nat → Nat) (k : ViewKind) (page : Nat) : View :=
  View.view k (pageBufferOfArray (remotePageFetch mem page))

/-- The cached-path outcome of reading `count` unsigned 32-bit elements at
`a`: every spanned page is fetched in full at 4-byte granularity, copied
byte-for-byte into a page buffer, and the views are assembled in address
order (composition of `loadPage`'s success completion with `readArray`'s
assembly continuation). -/
def cachedArrayReadU32 (mem : Nat → Nat) (a count : Nat) : ArrayOutcome :=
  assembleViews count (getOffset a RETRIEVAL_SIZE)
    ((calculatePagesForArray a RETRIEVAL_SIZE count).map
      (fetchedPageView mem ViewKind.u32))

/-- The uncached-path outcome: the single remote read covering the range. -/
def uncachedArrayReadU32 (mem : Nat → Nat) (a count : Nat) : List Nat :=
  jsDbgReadArray mem a RETRIEVAL_SIZE count

/-! ## Helper lemmas -/

/-- `asmStep` leaves the state unchanged once an error was recorded. -/
theorem asmStep_of_isSome (count : Nat) (s : AsmState) (v : View)
    (h : s.firstError.isSome) : asmStep count s v = s := by
  unfold asmStep
  rw [if_pos h]

/-- Folding further views after an error keeps the state unchanged. -/
theorem foldl_asmStep_of_isSome (count : Nat) (views : List View) (s : AsmState)
    (h : s.firstError.isSome) : views.foldl (asmStep count) s = s := by
  induction views with
  | nil => rfl
  | cons v vs ih =>
    rw [List.foldl_cons, asmStep_of_isSome count s v h, ih]

/-- The assembly fold records the first error of the views, in order. -/
theorem foldl_asmStep_firstErr (count : Nat) :
    ∀ (views : List View) (acc : List Int) (idx e : Nat),
      firstErrOf views = some e →
      (views.foldl (asmStep count) ⟨acc, idx, none⟩).firstError = some e := by
  intro views
  induction views with
  | nil => intro acc idx e h; simp [firstErrOf] at h
  | cons v vs ih =>
    intro acc idx e h
    match v with
    | .err e0 =>
      simp [firstErrOf, List.findSome?_cons] at h
      rw [List.foldl_cons]
      have hstep : asmStep count ⟨acc, idx, none⟩ (.err e0) = ⟨acc, idx, some e0⟩ := by
        unfold asmStep
        simp
      rw [hstep, foldl_asmStep_of_isSome count vs _ (by simp)]
      simpa using h
    | .view k b =>
      have h' : firstErrOf vs = some e := by
        simpa [firstErrOf, List.findSome?_cons] using h
      rw [List.foldl_cons]
      have hstep : asmStep count ⟨acc, idx, none⟩ (.view k b) =
          ⟨acc ++ (List.range (min (idx + (count - acc.length)) (viewLength k b) - idx)).map
            (fun j => viewGet k b (idx + j)), 0, none⟩ := by
        unfold asmStep
        simp
      rw [hstep]
      exact ih _ 0 e h'

/-- A `loadPage` call on an entry whose fetch is in flight: the caller is
appended to the waiter queue and no event is emitted. -/
theorem loadPageEntry_inflight (k : ViewKind) (w : Nat) (e : CacheEntry)
    (hm : e.memory = none) (hi : e.inflight = true) (hh : 1 ≤ e.hits) :
    loadPageEntry (some k) w e =
      ⟨true, { e with hits := e.hits + 1, callbacks := e.callbacks ++ [(w, k)] }, []⟩ := by
  obtain ⟨hits, mem, infl, cbs⟩ := e
  simp only at hm hi hh
  subst hm hi
  unfold loadPageEntry
  simp only [CACHE_TRIGGER]
  rw [if_neg (by omega)]
  simp

/-- Folding further `loadPage` calls over an in-flight entry only bumps the
hit counter and appends waiters in order; no further event is emitted. -/
theorem loadSeq_go_inflight (ws : List (Nat × ViewKind)) :
    ∀ (e : CacheEntry) (evs : List LoadEvent),
      e.memory = none → e.inflight = true → 1 ≤ e.hits →
      ws.foldl loadSeqStep (e, evs) =
        ({ e with hits := e.hits + ws.length, callbacks := e.callbacks ++ ws }, evs) := by
  induction ws with
  | nil => intro e evs _ _ _; simp
  | cons wk ws ih =>
    intro e evs hm hi hh
    rw [List.foldl_cons]
    have hstep : loadSeqStep (e, evs) wk =
        ({ e with hits := e.hits + 1, callbacks := e.callbacks ++ [wk] }, evs) := by
      unfold loadSeqStep
      rw [loadPageEntry_inflight wk.2 wk.1 e hm hi hh]
      simp
    rw [hstep, ih { e with hits := e.hits + 1, callbacks := e.callbacks ++ [wk] } evs
      (by simp [hm]) (by simp [hi]) (by simp)]
    have hlen : (wk :: ws).length = ws.length + 1 := rfl
    have hh2 : e.hits + 1 + ws.length = e.hits + (ws.length + 1) := by omega
    rw [hlen, List.append_assoc, List.singleton_append, hh2]

/-! ## Claim theorems -/

/-- C9: the intra-page element offset is computed as (address modulo 4096)
divided by the element size with truncating division; for element size 4,
address `pageBase + 4092` yields offset 1023, the page's last 4-byte
element. -/
theorem c9_offset_arithmetic :
    (∀ (address size : Nat), getOffset address size = address % PAGE_SIZE / size) ∧
    (∀ pageBase : Nat, getOffset (PAGE_SIZE * pageBase + 4092) 4 = 1023) := by
  refine ⟨fun _ _ => rfl, fun pb => ?_⟩
  simp only [getOffset, PAGE_SIZE]
  omega

/-- C7: the execution-state-change handler discards every cache entry (the
next read of any page sees a fresh zeroed entry, and a fresh entry's first
admission issues a fresh fetch instead of reusing stale bytes) while leaving
the resolved pointer width unchanged; `readPointer` caches the width on
first resolution and never re-queries once it is set. -/
theorem c7_clear_cache_keeps_pointer_size :
    (∀ (g : GlobalState) (p : Nat), (clearCache g).cache p = freshEntry) ∧
    (∀ g : GlobalState, (clearCache g).pointerSize = g.pointerSize) ∧
    (∀ (k : ViewKind) (w : Nat),
      loadPageEntry (some k) w freshEntry =
        ⟨true, ⟨1, none, true, [(w, k)]⟩, [LoadEvent.fetch]⟩) ∧
    (∀ (n : Nat) (c : Cache) (remote : Nat),
      readPointerResolve ⟨some n, c⟩ remote = (⟨some n, c⟩, n)) ∧
    (∀ (c : Cache) (remote : Nat),
      (readPointerResolve ⟨none, c⟩ remote).1.pointerSize = some remote) :=
  ⟨fun _ _ => rfl, fun _ => rfl, fun _ _ => rfl, fun _ _ _ => rfl, fun _ _ => rfl⟩

/-- C6: when a page fetch completes (with bytes or an error), every waiter
queued on the page at that moment is notified with the final state in
enqueue order (the event trace is the waiter queue mapped in order), and the
waiter queue is then emptied. -/
theorem c6_fifo_notification (r : ReadResult) (e : CacheEntry) :
    (completeFetch r e).1.callbacks = [] ∧
    (completeFetch r e).2 =
      e.callbacks.map (fun wk => LoadEvent.notify wk.1 (mkView wk.2 (finalMem r))) :=
  ⟨rfl, rfl⟩

/-- C5: a fetch failure becomes the page's error state: the entry stores the
error, every queued waiter receives the identical error regardless of its
element kind, a later read of the page before invalidation is served the
same error without any new fetch, and for an array read the first page in
address order carrying an error determines the single reported error with no
partial array delivered. -/
theorem c5_error_fanout_and_persistence (err : Nat) :
    (∀ e : CacheEntry,
      (completeFetch (.error err) e).1.memory = some (.err err) ∧
      (completeFetch (.error err) e).2 =
        e.callbacks.map (fun wk => LoadEvent.notify wk.1 (View.err err))) ∧
    (∀ (e : CacheEntry) (w : Nat) (k : ViewKind), e.memory = some (.err err) →
      loadPageEntry (some k) w e =
        ⟨true, { e with hits := e.hits + 1 }, [.notify w (View.err err)]⟩) ∧
    (∀ (count off : Nat) (views : List View), firstErrOf views = some err →
      assembleViews count off views = .error err) := by
  refine ⟨fun e => ⟨rfl, rfl⟩, ?_, ?_⟩
  · intro e w k h
    obtain ⟨hits, mem, infl, cbs⟩ := e
    simp only at h
    subst h
    rfl
  · intro count off views h
    have hfe := foldl_asmStep_firstErr count views [] off err h
    simp only [assembleViews]
    rw [hfe]

/-- Witness for C5 at concrete inputs: an entry with three queued waiters of
distinct kinds all receive the identical error, a later read is served the
stored error, and a view list whose first error is 7 assembles to error 7. -/
theorem c5_error_fanout_and_persistence_witness :
    ((completeFetch (.error 7) ⟨3, none, true, [(0, .u8), (1, .u32), (2, .i16)]⟩).2 =
      [LoadEvent.notify 0 (View.err 7), LoadEvent.notify 1 (View.err 7),
        LoadEvent.notify 2 (View.err 7)]) ∧
    ((⟨4, some (.err 7), true, []⟩ : CacheEntry).memory = some (.err 7) ∧
      loadPageEntry (some .u32) 9 ⟨4, some (.err 7), true, []⟩ =
        ⟨true, ⟨5, some (.err 7), true, []⟩, [.notify 9 (View.err 7)]⟩) ∧
    (firstErrOf [View.view .u8 [], View.err 7, View.err 9] = some 7 ∧
      assembleViews 5 0 [View.view .u8 [], View.err 7, View.err 9] = .error 7) := by
  refine ⟨?_, ⟨rfl, ?_⟩, ⟨by decide, ?_⟩⟩
  · exact ((c5_error_fanout_and_persistence 7).1 _).2
  · exact (c5_error_fanout_and_persistence 7).2.1 _ 9 .u32 rfl
  · exact (c5_error_fanout_and_persistence 7).2.2 5 0 _ (by decide)

/-- C1 counterexample: the claim states that 8-byte integers pass the
capability gate, but the viewer tables hold `null` at index 7, so an 8-byte
unsigned integer read is declined as unsupported. -/
theorem c1_counterexample :
    getArrayViewer 8 true false = none ∧
    (loadPageEntry (getArrayViewer 8 true false) 0 freshEntry).accepted = false := by
  decide

/-- C1 (amended): signed or unsigned integers of size 1, 2 or 4 bytes pass
the capability gate; every other element kind — integers of any other size
(including 8 bytes) and floats of sizes other than 4 or 8 bytes — is
declined immediately, before any cache-state check (the entry is untouched
and no event is emitted). -/
theorem c1_capability_gate (size : Nat) (isUnsigned isFloat : Bool) (w : Nat)
    (e : CacheEntry) :
    (isFloat = false ∧ (size = 1 ∨ size = 2 ∨ size = 4) →
      ∃ k, getArrayViewer size isUnsigned isFloat = some k) ∧
    ((isFloat = true ∧ size ≠ 4 ∧ size ≠ 8) ∨
        (isFloat = false ∧ size ≠ 1 ∧ size ≠ 2 ∧ size ≠ 4) →
      getArrayViewer size isUnsigned isFloat = none) ∧
    (getArrayViewer size isUnsigned isFloat = none →
      loadPageEntry (getArrayViewer size isUnsigned isFloat) w e = ⟨false, e, []⟩) := by
  refine ⟨?_, ?_, ?_⟩
  · rintro ⟨hf, hs⟩
    subst hf
    rcases hs with rfl | rfl | rfl <;> cases isUnsigned <;> exact ⟨_, rfl⟩
  · rintro (⟨hf, h4, h8⟩ | ⟨hf, h1, h2, h4⟩)
    · subst hf
      unfold getArrayViewer
      rw [if_pos rfl]
      by_cases hc : 4 ≤ size ∧ size % 4 = 0
      · rw [if_pos hc]
        apply List.getD_eq_default
        have hl : floatArrays.length = 2 := rfl
        rw [hl]
        omega
      · rw [if_neg hc]
    · subst hf
      unfold getArrayViewer
      rw [if_neg (by simp)]
      have htab : ∀ tab : List (Option ViewKind), tab = unsignedArrays ∨ tab = signedArrays →
          (if 1 ≤ size then tab.getD (size - 1) none else none) = none := by
        intro tab htb
        have hlen : tab.length = 8 := by rcases htb with rfl | rfl <;> rfl
        by_cases h1s : 1 ≤ size
        · rw [if_pos h1s]
          rcases Nat.lt_or_ge size 9 with h9 | h9
          · interval_cases size <;>
              first
                | omega
                | (rcases htb with rfl | rfl <;> rfl)
          · exact List.getD_eq_default _ _ (by rw [hlen]; omega)
        · rw [if_neg h1s]
      cases isUnsigned
      · rw [if_neg (by simp)]
        exact htab signedArrays (Or.inr rfl)
      · rw [if_pos rfl]
        exact htab unsignedArrays (Or.inl rfl)
  · intro h
    rw [h]
    rfl

/-- Witness for C1 (amended) at concrete inputs: size 2 signed passes the
gate, size 3 unsigned and a 6-byte float are declined with the entry
untouched. -/
theorem c1_capability_gate_witness :
    (∃ k, getArrayViewer 2 false false = some k) ∧
    getArrayViewer 3 true false = none ∧
    getArrayViewer 6 false true = none ∧
    loadPageEntry (getArrayViewer 3 true false) 0 freshEntry = ⟨false, freshEntry, []⟩ := by
  refine ⟨?_, ?_, ?_, ?_⟩
  · exact (c1_capability_gate 2 false false 0 freshEntry).1 ⟨rfl, Or.inr (Or.inl rfl)⟩
  · exact (c1_capability_gate 3 true false 0 freshEntry).2.1
      (Or.inr ⟨rfl, by omega, by omega, by omega⟩)
  · exact (c1_capability_gate 6 false true 0 freshEntry).2.1
      (Or.inl ⟨rfl, by omega, by omega⟩)
  · exact (c1_capability_gate 3 true false 0 freshEntry).2.2
      ((c1_capability_gate 3 true false 0 freshEntry).2.1
        (Or.inr ⟨rfl, by omega, by omega, by omega⟩))

/-- C2: per cache-entry lifetime at most one remote page fetch is issued:
for any nonempty sequence of admissions of one page starting from a fresh
entry, exactly one fetch is issued (by the admission that reaches the
trigger threshold) and every caller is enqueued as a waiter in arrival
order; an admission finding a fetch already pending enqueues the caller
without a fetch, and an admission finding the entry resolved issues no
fetch either. -/
theorem c2_single_fetch_coalescing (ws : List (Nat × ViewKind)) (hne : ws ≠ []) :
    fetchCount (loadSeq ws freshEntry).2 = 1 ∧
    (loadSeq ws freshEntry).1.callbacks = ws ∧
    (∀ (e : CacheEntry) (w : Nat) (k : ViewKind),
      e.memory = none → e.inflight = true → 1 ≤ e.hits →
      fetchCount (loadPageEntry (some k) w e).events = 0 ∧
      (loadPageEntry (some k) w e).entry.callbacks = e.callbacks ++ [(w, k)]) ∧
    (∀ (e : CacheEntry) (w : Nat) (k : ViewKind) (m : Mem), e.memory = some m →
      fetchCount (loadPageEntry (some k) w e).events = 0) := by
  have hrun : ∀ (wk : Nat × ViewKind) (ws' : List (Nat × ViewKind)),
      loadSeq (wk :: ws') freshEntry =
        ({ hits := 1 + ws'.length, memory := none, inflight := true,
           callbacks := [wk] ++ ws' }, [.fetch]) := by
    intro wk ws'
    unfold loadSeq
    rw [List.foldl_cons]
    have h1 : loadSeqStep (freshEntry, []) wk = (⟨1, none, true, [wk]⟩, [.fetch]) := rfl
    rw [h1, loadSeq_go_inflight ws' ⟨1, none, true, [wk]⟩ [.fetch] rfl rfl le_rfl]
  refine ⟨?_, ?_, ?_, ?_⟩
  · match ws, hne with
    | wk :: ws, _ =>
      rw [hrun wk ws]
      rfl
  · match ws, hne with
    | wk :: ws, _ =>
      rw [hrun wk ws]
      rfl
  · intro e w k hm hi hh
    rw [loadPageEntry_inflight k w e hm hi hh]
    exact ⟨rfl, rfl⟩
  · intro e w k m hm
    obtain ⟨hits, mem, infl, cbs⟩ := e
    simp only at hm
    subst hm
    rfl

/-- Witness for C2 at concrete inputs: two reads of a fresh page issue one
fetch and queue both callers in order; a read of an in-flight entry and a
read of a resolved entry issue none. -/
theorem c2_single_fetch_coalescing_witness :
    fetchCount (loadSeq [(0, .u8), (1, .u32)] freshEntry).2 = 1 ∧
    (loadSeq [(0, .u8), (1, .u32)] freshEntry).1.callbacks = [(0, .u8), (1, .u32)] ∧
    fetchCount (loadPageEntry (some .i16) 5 ⟨2, none, true, []⟩).events = 0 ∧
    fetchCount (loadPageEntry (some .u8) 6 ⟨1, some (.buf []), false, []⟩).events = 0 := by
  have h := c2_single_fetch_coalescing [(0, .u8), (1, .u32)] (by simp)
  exact ⟨h.1, h.2.1, (h.2.2.1 ⟨2, none, true, []⟩ 5 .i16 rfl rfl (by decide)).1,
    h.2.2.2 ⟨1, some (.buf []), false, []⟩ 6 .u8 (.buf []) rfl⟩

/-! ## Helper lemmas for the array-read path -/

/-- `resultsOf` distributes over trace concatenation. -/
theorem resultsOf_append (a b : List ArrEvent) :
    resultsOf (a ++ b) = resultsOf a ++ resultsOf b := by
  unfold resultsOf
  exact List.filterMap_append a b _

/-- One `loadPage` call emits no event, a fetch, or a single synchronous
notification of the calling waiter. -/
theorem loadPageEntry_events_cases (viewer : Option ViewKind) (w : Nat) (e : CacheEntry) :
    (loadPageEntry viewer w e).events = [] ∨
    (loadPageEntry viewer w e).events = [.fetch] ∨
    ∃ v, (loadPageEntry viewer w e).events = [.notify w v] := by
  obtain ⟨hits, mem, infl, cbs⟩ := e
  match viewer with
  | none => exact Or.inl rfl
  | some k =>
    cases mem with
    | some m => exact Or.inr (Or.inr ⟨mkView k m, rfl⟩)
    | none =>
      unfold loadPageEntry
      dsimp only
      split
      · exact Or.inr (Or.inl rfl)
      · split
        · exact Or.inl rfl
        · exact Or.inl rfl

/-- `pageLoaded` never touches the eligibility flag. -/
theorem deliverView_eligible (count off j : Nat) (v : View) (s : ReqState) :
    (deliverView count off j v s).eligible = s.eligible := rfl

/-- `pageLoaded` decrements the remaining count by one. -/
theorem deliverView_remaining (count off j : Nat) (v : View) (s : ReqState) :
    (deliverView count off j v s).remaining = s.remaining - 1 := rfl

/-- With at least two pages still outstanding, a delivery cannot fire the
assembly continuation. -/
theorem deliverView_events_big (count off j : Nat) (v : View) (s : ReqState)
    (h2 : 2 ≤ s.remaining) :
    (deliverView count off j v s).events = s.events := by
  unfold deliverView
  dsimp only
  rw [if_neg]
  rintro ⟨h0, _⟩
  omega

/-- Once some page was declined (`areAllPagesEligible` is false), a delivery
never fires the assembly continuation. -/
theorem deliverView_events_noelig (count off j : Nat) (v : View) (s : ReqState)
    (h : s.eligible = false) :
    (deliverView count off j v s).events = s.events := by
  unfold deliverView
  dsimp only
  rw [if_neg (by simp [h])]

/-- `applyLoadEvents` on an empty event list is the identity. -/
theorem applyLoadEvents_nil (count off page : Nat) (s : ReqState) :
    applyLoadEvents count off page [] s = s := rfl

/-- `applyLoadEvents` on a single fetch records the fetch. -/
theorem applyLoadEvents_fetchOne (count off page : Nat) (s : ReqState) :
    applyLoadEvents count off page [.fetch] s =
      { s with events := s.events ++ [.fetch page] } := rfl

/-- `applyLoadEvents` on a single notification runs the `pageLoaded`
closure. -/
theorem applyLoadEvents_notifyOne (count off page j : Nat) (v : View) (s : ReqState) :
    applyLoadEvents count off page [.notify j v] s = deliverView count off j v s := rfl

/-- `processPage`'s eligibility output is the conjunction with this page's
admission outcome. -/
theorem processPage_eligible (count off : Nat) (viewer : Option ViewKind) (s : ReqState)
    (i page : Nat) :
    (processPage count off viewer s i page).eligible =
      (s.eligible && (loadPageEntry viewer i (s.cache page)).accepted) := by
  unfold processPage
  rcases loadPageEntry_events_cases viewer i (s.cache page) with h | h | ⟨v, h⟩ <;> rw [h] <;> rfl

/-- `processPage` decrements the remaining count by at most one. -/
theorem processPage_remaining_cases (count off : Nat) (viewer : Option ViewKind) (s : ReqState)
    (i page : Nat) :
    (processPage count off viewer s i page).remaining = s.remaining ∨
    (processPage count off viewer s i page).remaining = s.remaining - 1 := by
  unfold processPage
  rcases loadPageEntry_events_cases viewer i (s.cache page) with h | h | ⟨v, h⟩ <;> rw [h]
  · exact Or.inl rfl
  · exact Or.inl rfl
  · exact Or.inr rfl

/-- With at least two pages outstanding, `processPage` can add a fetch to the
trace but never an assembly result. -/
theorem processPage_events_big (count off : Nat) (viewer : Option ViewKind) (s : ReqState)
    (i page : Nat) (h2 : 2 ≤ s.remaining) :
    (processPage count off viewer s i page).events = s.events ∨
    (processPage count off viewer s i page).events = s.events ++ [.fetch page] := by
  unfold processPage
  rcases loadPageEntry_events_cases viewer i (s.cache page) with h | h | ⟨v, h⟩ <;> rw [h]
  · exact Or.inl rfl
  · exact Or.inr rfl
  · rw [applyLoadEvents_notifyOne]
    exact Or.inl (deliverView_events_big count off i v _ h2)

/-- If `processPage` ends with eligibility false, it added no assembly
result to the trace. -/
theorem processPage_results_noelig (count off : Nat) (viewer : Option ViewKind) (s : ReqState)
    (i page : Nat) (h : (processPage count off viewer s i page).eligible = false) :
    resultsOf (processPage count off viewer s i page).events = resultsOf s.events := by
  have helig := processPage_eligible count off viewer s i page
  rw [h] at helig
  unfold processPage
  rcases loadPageEntry_events_cases viewer i (s.cache page) with hh | hh | ⟨v, hh⟩ <;> rw [hh]
  · rfl
  · rw [applyLoadEvents_fetchOne]
    dsimp only
    rw [resultsOf_append]
    simp [resultsOf]
  · rw [applyLoadEvents_notifyOne,
      deliverView_events_noelig count off i v _ (by exact helig.symm)]

/-- If the whole `requestPages` pass ends ineligible (some page was
declined), then it fired no assembly result. -/
theorem requestFold_no_result (count off : Nat) (viewer : Option ViewKind) :
    ∀ (L : List (Nat × Nat)) (s : ReqState),
      resultsOf s.events = [] → L.length ≤ s.remaining →
      (L.foldl (fun st ip => processPage count off viewer st ip.1 ip.2) s).eligible = false →
      resultsOf (L.foldl (fun st ip => processPage count off viewer st ip.1 ip.2) s).events
        = [] := by
  intro L
  induction L with
  | nil => intro s h0 _ _; exact h0
  | cons ip L ih =>
    intro s h0 hlen helig
    rw [List.foldl_cons] at helig ⊢
    cases L with
    | nil =>
      rw [List.foldl_nil] at helig ⊢
      rw [processPage_results_noelig count off viewer s ip.1 ip.2 helig]
      exact h0
    | cons ip2 L' =>
      have h2 : 2 ≤ s.remaining := by
        have := hlen
        simp only [List.length_cons] at this
        omega
      have hres : resultsOf (processPage count off viewer s ip.1 ip.2).events = [] := by
        rcases processPage_events_big count off viewer s ip.1 ip.2 h2 with h | h <;> rw [h]
        · exact h0
        · rw [resultsOf_append, h0]
          simp [resultsOf]
      have hrem : (ip2 :: L').length ≤ (processPage count off viewer s ip.1 ip.2).remaining := by
        rcases processPage_remaining_cases count off viewer s ip.1 ip.2 with h | h <;> rw [h] <;>
          simp only [List.length_cons] at hlen ⊢ <;> omega
      exact ih _ hres hrem helig

/-- After `areAllPagesEligible` is false, asynchronous notifications never
fire the assembly continuation and never restore eligibility. -/
theorem applyNotifyList_noelig (count off : Nat) :
    ∀ (evs : List LoadEvent) (s : ReqState), s.eligible = false →
      (applyNotifyList count off evs s).events = s.events ∧
      (applyNotifyList count off evs s).eligible = false := by
  intro evs
  induction evs with
  | nil => intro s h; exact ⟨rfl, h⟩
  | cons ev evs ih =>
    intro s h
    unfold applyNotifyList
    rw [List.foldl_cons]
    match ev with
    | .fetch => exact ih s h
    | .notify j v =>
      have hd := ih (deliverView count off j v s) (by rw [deliverView_eligible]; exact h)
      unfold applyNotifyList at hd
      refine ⟨?_, hd.2⟩
      rw [hd.1, deliverView_events_noelig count off j v s h]

/-! ## Claim theorems for the array-read path -/

/-- C3: when at least one spanned page is declined by admission
(`areAllPagesEligible` ends false), the cached assembly continuation never
fires — neither synchronously nor from any later page-fetch completion — and
exactly one uncached read covering the full requested range is issued, so no
result mixes cached and uncached pages. -/
theorem c3_mixed_admission_fallback (a itemSize count : Nat) (isUnsigned isFloat : Bool)
    (c : Cache)
    (hdecl : (readArrayModel a itemSize isUnsigned isFloat count c).req.eligible = false) :
    (readArrayModel a itemSize isUnsigned isFloat count c).uncached =
      some (a, itemSize, count) ∧
    resultsOf (readArrayModel a itemSize isUnsigned isFloat count c).req.events = [] ∧
    ∀ (page : Nat) (r : ReadResult),
      resultsOf (completePageFetch count (getOffset a itemSize) page r
        (readArrayModel a itemSize isUnsigned isFloat count c).req).events = [] := by
  simp only [readArrayModel] at hdecl ⊢
  refine ⟨by simp [hdecl], ?_, ?_⟩
  · unfold readArrayReq requestPagesModel at hdecl ⊢
    exact requestFold_no_result count (getOffset a itemSize)
      (getArrayViewer itemSize isUnsigned isFloat) _ _ rfl (by simp) hdecl
  · intro page r
    have hres : resultsOf (readArrayReq a itemSize isUnsigned isFloat count c).events = [] := by
      unfold readArrayReq requestPagesModel at hdecl ⊢
      exact requestFold_no_result count (getOffset a itemSize)
        (getArrayViewer itemSize isUnsigned isFloat) _ _ rfl (by simp) hdecl
    unfold completePageFetch
    rw [(applyNotifyList_noelig count (getOffset a itemSize) _ _ (by exact hdecl)).1]
    exact hres

/-- Witness for C3 at concrete inputs: a two-page read with unsupported
3-byte elements is declined on both pages; one full-range uncached read is
issued, no assembly result is delivered, and a later fetch completion still
delivers none. -/
theorem c3_mixed_admission_fallback_witness :
    (readArrayModel 0 3 true false 2000 freshCache).req.eligible = false ∧
    (readArrayModel 0 3 true false 2000 freshCache).uncached = some (0, 3, 2000) ∧
    resultsOf (readArrayModel 0 3 true false 2000 freshCache).req.events = [] ∧
    resultsOf (completePageFetch 2000 (getOffset 0 3) 0 (.error 5)
      (readArrayModel 0 3 true false 2000 freshCache).req).events = [] := by
  have h := c3_mixed_admission_fallback 0 3 2000 true false freshCache (by decide)
  exact ⟨by decide, h.1, h.2.1, h.2.2 0 (.error 5)⟩

/-- C10: a count-0 array read at a page-aligned address spans no pages; the
operation fires neither the assembly continuation nor the uncached fallback,
leaves the cache untouched, and thus never delivers any result. -/
theorem c10_count_zero_no_delivery (a itemSize : Nat) (isUnsigned isFloat : Bool) (c : Cache)
    (hal : PAGE_SIZE ∣ a) :
    calculatePagesForArray a itemSize 0 = [] ∧
    (readArrayModel a itemSize isUnsigned isFloat 0 c).req.events = [] ∧
    (readArrayModel a itemSize isUnsigned isFloat 0 c).uncached = none ∧
    (readArrayModel a itemSize isUnsigned isFloat 0 c).req.cache = c := by
  have hmod : a % PAGE_SIZE = 0 := by
    obtain ⟨q, rfl⟩ := hal
    exact Nat.mul_mod_right _ _
  have hpage : getPage a = a := by
    unfold getPage
    rw [hmod, Nat.sub_zero]
  have hcalc : calculatePagesForArray a itemSize 0 = [] := by
    unfold calculatePagesForArray
    rw [Nat.mul_zero, Nat.add_zero, hpage, Nat.sub_self]
    rfl
  refine ⟨hcalc, ?_, ?_, ?_⟩ <;>
    simp only [readArrayModel, readArrayReq, hcalc, requestPagesModel] <;> rfl

/-- Witness for C10 at concrete inputs: a count-0 read at page-aligned
address 4096. -/
theorem c10_count_zero_no_delivery_witness :
    PAGE_SIZE ∣ (4096 : Nat) ∧
    calculatePagesForArray 4096 4 0 = [] ∧
    (readArrayModel 4096 4 true false 0 freshCache).req.events = [] ∧
    (readArrayModel 4096 4 true false 0 freshCache).uncached = none ∧
    (readArrayModel 4096 4 true false 0 freshCache).req.cache = freshCache := by
  have h := c10_count_zero_no_delivery 4096 4 true false freshCache ⟨1, rfl⟩
  exact ⟨⟨1, rfl⟩, h.1, h.2.1, h.2.2.1, h.2.2.2⟩

/-! ## List and arithmetic helpers for the assembly proofs -/

/-- Dropping from `range` is a shifted `range`. -/
theorem drop_range_eq (n m : Nat) :
    (List.range n).drop m = (List.range (n - m)).map (fun j => m + j) := by
  apply List.ext_getElem (by simp)
  intro i h1 h2
  rw [List.getElem_drop, List.getElem_range, List.getElem_map, List.getElem_range]

/-- A `take` after `drop` of a mapped `range` is a mapped shifted `range`,
clipped at the range's length. -/
theorem slice_map_range {α : Type _} (len s c : Nat) (g : Nat → α) :
    (((List.range len).map g).drop s).take c =
      (List.range (min (s + c) len - s)).map (fun j => g (s + j)) := by
  rw [← List.map_drop, drop_range_eq, ← List.map_take, ← List.map_take, List.take_range,
    List.map_map]
  have hmin : c ⊓ (len - s) = (s + c) ⊓ len - s := by omega
  rw [hmin]
  rfl

/-- Flattening chunked ranges: if item `i` holds the `m` values
`g (m*i+j)`, the flattening is `range (n*m)` mapped through `g`. -/
theorem flatten_range_chunks {α : Type _} (g : Nat → α) (m : Nat) :
    ∀ n : Nat,
      ((List.range n).map (fun i => (List.range m).map (fun j => g (m * i + j)))).flatten =
        (List.range (n * m)).map g := by
  intro n
  induction n with
  | zero => simp
  | succ n ih =>
    rw [List.range_succ, List.map_append, List.flatten_append, ih]
    simp only [List.map_cons, List.map_nil, List.flatten_cons, List.flatten_nil,
      List.append_nil]
    rw [Nat.succ_mul, List.range_add, List.map_append, List.map_map]
    congr 1
    apply List.map_congr_left
    intro j _
    simp only [Function.comp_apply]
    congr 1
    ring

/-- Length of a flattening of constant-length lists. -/
theorem flatten_length_const {α : Type _} (L : List (List α)) (c : Nat)
    (h : ∀ b ∈ L, b.length = c) : L.flatten.length = L.length * c := by
  induction L with
  | nil => simp
  | cons b L ih =>
    rw [List.flatten_cons, List.length_append, ih (fun x hx => h x (by simp [hx])),
      h b (by simp), List.length_cons]
    ring

/-- Little-endian encoding inverts decoding on byte lists. -/
theorem leEncode_leDecode (bs : List Nat) (h : ∀ b ∈ bs, b < 256) :
    leEncode bs.length (leDecode bs) = bs := by
  induction bs with
  | nil => rfl
  | cons b bs ih =>
    have hb : b < 256 := h b (by simp)
    show leEncode (bs.length + 1) (leDecode (b :: bs)) = b :: bs
    have hdec : leDecode (b :: bs) = b + 256 * leDecode bs := rfl
    unfold leEncode
    rw [hdec]
    congr 1
    · omega
    · have hdiv : (b + 256 * leDecode bs) / 256 = leDecode bs := by omega
      rw [hdiv]
      exact ih (fun x hx => h x (by simp [hx]))

/-! ## The assembly fold as a take/drop of the flattened element lists -/

/-- The assembly `forEach` over error-free views gathers, starting at `idx`
in the first view and at 0 in every later view, exactly the first
`count - acc.length` elements of the flattened element lists dropped by
`idx` — provided `idx` does not exceed the first view's capacity. -/
theorem foldl_asmStep_views (count : Nat) (k : ViewKind) :
    ∀ (bufs : List (List Nat)) (acc : List Int) (idx : Nat),
      (∀ b0, bufs.head? = some b0 → idx ≤ viewLength k b0) →
      ((bufs.map (View.view k)).foldl (asmStep count) ⟨acc, idx, none⟩).firstError = none ∧
      ((bufs.map (View.view k)).foldl (asmStep count) ⟨acc, idx, none⟩).result =
        acc ++ ((bufs.map (viewElems k)).flatten.drop idx).take (count - acc.length) := by
  intro bufs
  induction bufs with
  | nil =>
    intro acc idx _
    refine ⟨rfl, ?_⟩
    simp
  | cons b bufs ih =>
    intro acc idx hidx
    have hidx0 : idx ≤ viewLength k b := hidx b rfl
    have hstep : asmStep count ⟨acc, idx, none⟩ (View.view k b) =
        ⟨acc ++ (List.range (min (idx + (count - acc.length)) (viewLength k b) - idx)).map
            (fun j => viewGet k b (idx + j)), 0, none⟩ := rfl
    have hnew : (List.range (min (idx + (count - acc.length)) (viewLength k b) - idx)).map
          (fun j => viewGet k b (idx + j)) =
        ((viewElems k b).drop idx).take (count - acc.length) := by
      rw [viewElems, slice_map_range]
    rw [List.map_cons, List.foldl_cons, hstep]
    obtain ⟨hfe, hres⟩ := ih
      (acc ++ ((viewElems k b).drop idx).take (count - acc.length)) 0
      (fun b0 _ => Nat.zero_le _)
    rw [hnew]
    refine ⟨hfe, ?_⟩
    have hlen : (viewElems k b).length = viewLength k b := by simp [viewElems]
    have hz : idx - (viewElems k b).length = 0 := by rw [hlen]; omega
    have harg : count -
        (acc ++ ((viewElems k b).drop idx).take (count - acc.length)).length =
        count - acc.length - ((viewElems k b).drop idx).length := by
      rw [List.length_append, List.length_take, List.length_drop]
      omega
    rw [hres, harg, List.map_cons, List.flatten_cons, List.drop_append_eq_append_drop, hz,
      List.drop_zero, List.take_append_eq_append_take, List.append_assoc]

/-- When the assembly fold sees no error, `assembleViews` reports the
fold's gathered array. -/
theorem assembleViews_eq_array (count off : Nat) (views : List View)
    (h : (views.foldl (asmStep count) ⟨[], off, none⟩).firstError = none) :
    assembleViews count off views =
      .array ((views.foldl (asmStep count) ⟨[], off, none⟩).result) := by
  simp only [assembleViews]
  rw [h]

/-! ## Page-plan coverage and shape -/

/-- The page loop's pages cover the requested range: the end of the last
page reaches `lastAddress`. -/
theorem calcPagesGo_cover :
    ∀ (fuel cur last : Nat), last - cur ≤ fuel →
      last ≤ cur + PAGE_SIZE * (calcPagesGo fuel cur last).length := by
  intro fuel
  induction fuel with
  | zero =>
    intro cur last h
    unfold calcPagesGo
    simp only [List.length_nil, Nat.mul_zero, Nat.add_zero]
    omega
  | succ fuel ih =>
    intro cur last h
    unfold calcPagesGo
    by_cases hlt : cur < last
    · rw [if_pos hlt]
      have hrec := ih (cur + PAGE_SIZE) last (by simp only [PAGE_SIZE] at h ⊢; omega)
      simp only [List.length_cons, PAGE_SIZE] at hrec ⊢
      omega
    · rw [if_neg hlt]
      simp only [List.length_nil, Nat.mul_zero, Nat.add_zero]
      omega

/-- The page loop produces consecutive pages: page `i` is
`currentPage + PAGE_SIZE * i`. -/
theorem calcPagesGo_shape :
    ∀ (fuel cur last : Nat),
      calcPagesGo fuel cur last =
        (List.range (calcPagesGo fuel cur last).length).map
          (fun i => cur + PAGE_SIZE * i) := by
  intro fuel
  induction fuel with
  | zero => intro cur last; rfl
  | succ fuel ih =>
    intro cur last
    unfold calcPagesGo
    by_cases hlt : cur < last
    · rw [if_pos hlt]
      conv_lhs => rw [ih (cur + PAGE_SIZE) last]
      simp only [List.length_cons]
      rw [List.range_succ_eq_map, List.map_cons, List.map_map]
      congr 1
      apply List.map_congr_left
      intro j _
      simp only [Function.comp_apply, Nat.succ_eq_add_one]
      ring
    · rw [if_neg hlt]
      rfl

/-- `getPage` splits an address into page base plus intra-page remainder. -/
theorem getPage_add_mod (a : Nat) : getPage a + a % PAGE_SIZE = a := by
  unfold getPage
  simp only [PAGE_SIZE]
  omega

/-- C4's counting fact: the spanned pages offer at least `offset + count`
elements of size `k.size`. -/
theorem pages_capacity (k : ViewKind) (a count : Nat) :
    getOffset a k.size + count ≤
      (calculatePagesForArray a k.size count).length * (PAGE_SIZE / k.size) := by
  have hpos : 0 < k.size := by cases k <;> decide
  have hdvd : k.size ∣ PAGE_SIZE := by
    cases k
    · exact ⟨1024, rfl⟩
    · exact ⟨512, rfl⟩
    · exact ⟨4096, rfl⟩
    · exact ⟨2048, rfl⟩
    · exact ⟨1024, rfl⟩
    · exact ⟨4096, rfl⟩
    · exact ⟨2048, rfl⟩
    · exact ⟨1024, rfl⟩
  set N := (calculatePagesForArray a k.size count).length with hN
  have hcov : a + k.size * count ≤ getPage a + PAGE_SIZE * N :=
    calcPagesGo_cover _ _ _ le_rfl
  have hmul : k.size * (PAGE_SIZE / k.size) = PAGE_SIZE := by
    rw [Nat.mul_comm]
    exact Nat.div_mul_cancel hdvd
  have hoffle : k.size * getOffset a k.size ≤ a % PAGE_SIZE := by
    unfold getOffset
    rw [Nat.mul_comm]
    exact Nat.div_mul_le_self _ _
  have hsplit := getPage_add_mod a
  have hkey : k.size * (getOffset a k.size + count) ≤ k.size * ((PAGE_SIZE / k.size) * N) := by
    calc k.size * (getOffset a k.size + count)
        = k.size * getOffset a k.size + k.size * count := by ring
      _ ≤ a % PAGE_SIZE + k.size * count := by omega
      _ ≤ PAGE_SIZE * N := by omega
      _ = k.size * ((PAGE_SIZE / k.size) * N) := by rw [← Nat.mul_assoc, hmul]
  have hfin := Nat.le_of_mul_le_mul_left hkey hpos
  rw [Nat.mul_comm]
  exact hfin

/-- The intra-page offset never exceeds a page's element capacity. -/
theorem getOffset_le_capacity (k : ViewKind) (a : Nat) :
    getOffset a k.size ≤ PAGE_SIZE / k.size := by
  unfold getOffset
  apply Nat.div_le_div_right
  exact Nat.le_of_lt (Nat.mod_lt _ (by simp [PAGE_SIZE]))

/-! ## C4 -/

/-- C4: for an array read whose spanned pages all deliver full page buffers
without error, the assembly continuation delivers exactly `count` elements
in address order: the flattened per-page element sequences, starting at the
address's intra-page element offset in the first page and at offset 0 in
every later page, truncated at `count` — and that truncation really has
`count` elements because the spanned pages cover the range. -/
theorem c4_assembly_in_address_order (k : ViewKind) (a count : Nat)
    (bufs : List (List Nat))
    (hn : bufs.length = (calculatePagesForArray a k.size count).length)
    (hb : ∀ b ∈ bufs, b.length = PAGE_SIZE) :
    assembleViews count (getOffset a k.size) (bufs.map (View.view k)) =
      .array (((bufs.map (viewElems k)).flatten.drop (getOffset a k.size)).take count) ∧
    (((bufs.map (viewElems k)).flatten.drop (getOffset a k.size)).take count).length
      = count := by
  have hpos : 0 < k.size := by cases k <;> decide
  have hcap : ∀ b ∈ bufs, viewLength k b = PAGE_SIZE / k.size := by
    intro b hbb
    unfold viewLength
    rw [hb b hbb]
  obtain ⟨hfe, hres⟩ := foldl_asmStep_views count k bufs [] (getOffset a k.size)
    (by
      intro b0 h0
      have hmem : b0 ∈ bufs := by
        cases bufs with
        | nil => simp at h0
        | cons x xs =>
          simp only [List.head?_cons, Option.some.injEq] at h0
          simp [h0]
      rw [hcap b0 hmem]
      exact getOffset_le_capacity k a)
  have hflatlen : (bufs.map (viewElems k)).flatten.length =
      bufs.length * (PAGE_SIZE / k.size) := by
    rw [flatten_length_const (bufs.map (viewElems k)) (PAGE_SIZE / k.size)
      (by
        intro x hx
        obtain ⟨b, hbb, rfl⟩ := List.mem_map.1 hx
        simp only [viewElems, List.length_map, List.length_range]
        exact hcap b hbb), List.length_map]
  have hcount : getOffset a k.size + count ≤ bufs.length * (PAGE_SIZE / k.size) := by
    rw [hn]
    exact pages_capacity k a count
  constructor
  · simp only [assembleViews]
    rw [hfe, hres]
    simp
  · rw [List.length_take, List.length_drop, hflatlen]
    omega

/-- Witness for C4 at concrete inputs: a one-page unsigned 32-bit read of 2
elements at page-aligned address 4096 over a zero-filled buffer. -/
theorem c4_assembly_in_address_order_witness :
    ([List.replicate 4096 0] : List (List Nat)).length =
      (calculatePagesForArray 4096 (ViewKind.u32).size 2).length ∧
    (∀ b ∈ ([List.replicate 4096 0] : List (List Nat)), b.length = PAGE_SIZE) ∧
    assembleViews 2 (getOffset 4096 (ViewKind.u32).size)
        (([List.replicate 4096 0] : List (List Nat)).map (View.view .u32)) =
      .array (((([List.replicate 4096 0] : List (List Nat)).map
        (viewElems .u32)).flatten.drop (getOffset 4096 (ViewKind.u32).size)).take 2) ∧
    (((([List.replicate 4096 0] : List (List Nat)).map
        (viewElems .u32)).flatten.drop (getOffset 4096 (ViewKind.u32).size)).take 2).length
      = 2 := by
  have h1 : ([List.replicate 4096 0] : List (List Nat)).length =
      (calculatePagesForArray 4096 (ViewKind.u32).size 2).length := by decide
  have h2 : ∀ b ∈ ([List.replicate 4096 0] : List (List Nat)), b.length = PAGE_SIZE := by
    intro b hbb
    simp only [List.mem_singleton] at hbb
    subst hbb
    rw [List.length_replicate]
    rfl
  have h := c4_assembly_in_address_order .u32 4096 2 [List.replicate 4096 0] h1 h2
  exact ⟨h1, h2, h.1, h.2⟩

/-! ## C8: cached path versus uncached path -/

/-- The page buffer built from a successful page fetch holds, byte for byte,
the remote memory of that page: encoding the fetched 4-byte values back into
the buffer inverts their decoding. -/
theorem pageBufferOfArray_flat (mem : Nat → Nat) (page : Nat) (hm : ∀ x, mem x < 256) :
    pageBufferOfArray (remotePageFetch mem page) =
      (List.range 4096).map (fun t => mem (page + t)) := by
  have hpt : ∀ i ∈ List.range (PAGE_SIZE / RETRIEVAL_SIZE),
      leEncode RETRIEVAL_SIZE ((remotePageFetch mem page).getD i 0) =
        (List.range RETRIEVAL_SIZE).map
          (fun j => mem (page + (RETRIEVAL_SIZE * i + j))) := by
    intro i hi
    rw [List.mem_range] at hi
    unfold remotePageFetch jsDbgReadArray
    rw [List.getD_eq_getElem _ _ (by simpa using hi), List.getElem_map, List.getElem_range]
    have hlenb : ((List.range RETRIEVAL_SIZE).map
        fun j => mem (page + RETRIEVAL_SIZE * i + j)).length = RETRIEVAL_SIZE := by
      simp
    have hrt := leEncode_leDecode
      ((List.range RETRIEVAL_SIZE).map fun j => mem (page + RETRIEVAL_SIZE * i + j))
      (by
        intro x hx
        obtain ⟨j, hj, rfl⟩ := List.mem_map.1 hx
        exact hm _)
    rw [hlenb] at hrt
    rw [hrt]
    apply List.map_congr_left
    intro j _
    congr 1
    ring
  unfold pageBufferOfArray
  rw [List.map_congr_left hpt, flatten_range_chunks
    (fun t => mem (page + t)) RETRIEVAL_SIZE (PAGE_SIZE / RETRIEVAL_SIZE)]
  rfl

/-- A `Uint32Array` view over a byte buffer that images a function decodes
each group of 4 bytes little-endian. -/
theorem viewElems_u32_flat (f : Nat → Nat) :
    viewElems .u32 ((List.range 4096).map f) =
      (List.range 1024).map
        (fun i => ((leDecode ((List.range 4).map (fun j => f (4 * i + j)))) : Int)) := by
  unfold viewElems viewLength viewGet
  simp only [ViewKind.size, ViewKind.decode, List.length_map, List.length_range]
  norm_num
  intro i hi
  rw [slice_map_range 4096 (i * 4) 4 f]
  have hmin : (i * 4 + 4) ⊓ 4096 - i * 4 = 4 := by omega
  rw [hmin]
  congr 1
  apply List.map_congr_left
  intro j _
  congr 1
  ring

/-- The cached read of `count` unsigned 32-bit elements at a 4-byte aligned
address delivers exactly the remote memory's 32-bit values at
`a, a+4, a+8, ...` — the composition of page fetch, byte copy and assembly
loses nothing. -/
theorem cachedArrayReadU32_eq (mem : Nat → Nat) (a count : Nat)
    (hm : ∀ x, mem x < 256) (ha : RETRIEVAL_SIZE ∣ a) :
    cachedArrayReadU32 mem a count =
      .array ((List.range count).map
        (fun i => (remoteU32 mem (a + RETRIEVAL_SIZE * i) : Int))) := by
  have hfourdvd : 4 * (a % 4096 / 4) = a % 4096 := by
    have ha4 : (4 : Nat) ∣ a := ha
    omega
  have hoff : getOffset a RETRIEVAL_SIZE = a % 4096 / 4 := rfl
  have hpage0 : getPage a + a % 4096 = a := getPage_add_mod a
  -- the per-page byte buffers
  have hbufs : (calculatePagesForArray a RETRIEVAL_SIZE count).map
      (fetchedPageView mem ViewKind.u32) =
      ((calculatePagesForArray a RETRIEVAL_SIZE count).map
        (fun p => (List.range 4096).map (fun t => mem (p + t)))).map (View.view .u32) := by
    rw [List.map_map]
    apply List.map_congr_left
    intro p _
    unfold fetchedPageView
    rw [Function.comp_apply, pageBufferOfArray_flat mem p hm]
  unfold cachedArrayReadU32
  rw [hbufs]
  obtain ⟨hfe, hres⟩ := foldl_asmStep_views count ViewKind.u32
    ((calculatePagesForArray a RETRIEVAL_SIZE count).map
      (fun p => (List.range 4096).map (fun t => mem (p + t))))
    [] (getOffset a RETRIEVAL_SIZE)
    (by
      intro b0 h0
      obtain ⟨p, hp, rfl⟩ : ∃ p, p ∈ (calculatePagesForArray a RETRIEVAL_SIZE count) ∧
          (List.range 4096).map (fun t => mem (p + t)) = b0 := by
        cases hl : (calculatePagesForArray a RETRIEVAL_SIZE count) with
        | nil => rw [hl] at h0; simp at h0
        | cons q qs =>
          rw [hl] at h0
          simp only [List.map_cons, List.head?_cons, Option.some.injEq] at h0
          exact ⟨q, by simp [hl], h0⟩
      show getOffset a RETRIEVAL_SIZE ≤ viewLength ViewKind.u32 _
      unfold viewLength
      simp only [List.length_map, List.length_range, ViewKind.size]
      rw [hoff]
      omega)
  rw [assembleViews_eq_array _ _ _ hfe, hres]
  congr 1
  simp only [List.nil_append, List.length_nil, Nat.sub_zero, List.map_map]
  -- flatten of the per-page element lists
  have helems : ((calculatePagesForArray a RETRIEVAL_SIZE count).map
        (viewElems ViewKind.u32 ∘ fun p => (List.range 4096).map (fun t => mem (p + t)))) =
      (List.range (calculatePagesForArray a RETRIEVAL_SIZE count).length).map
        (fun i => (List.range 1024).map
          (fun q => ((remoteU32 mem (getPage a + 4 * (1024 * i + q))) : Int))) := by
    conv_lhs => rw [calculatePagesForArray, calcPagesGo_shape]
    rw [List.map_map, ← calculatePagesForArray]
    apply List.map_congr_left
    intro i _
    rw [Function.comp_apply, Function.comp_apply, viewElems_u32_flat]
    apply List.map_congr_left
    intro q _
    have hrem : ∀ x, (remoteU32 mem x : Nat) =
        leDecode ((List.range 4).map fun j => mem (x + j)) := fun x => rfl
    rw [hrem]
    congr 1
    congr 1
    apply List.map_congr_left
    intro j _
    congr 1
    simp only [PAGE_SIZE]
    ring
  rw [helems, flatten_range_chunks
    (fun t => ((remoteU32 mem (getPage a + 4 * t)) : Int)) 1024
    (calculatePagesForArray a RETRIEVAL_SIZE count).length]
  rw [slice_map_range, hoff]
  have hcnt : (a % 4096 / 4 + count) ⊓
      ((calculatePagesForArray a RETRIEVAL_SIZE count).length * 1024) -
      a % 4096 / 4 = count := by
    have hcap : a % 4096 / 4 + count ≤
        (calculatePagesForArray a RETRIEVAL_SIZE count).length * 1024 :=
      pages_capacity ViewKind.u32 a count
    omega
  rw [hcnt]
  apply List.map_congr_left
  intro i _
  congr 2
  simp only [RETRIEVAL_SIZE]
  omega

/-- C8: reading 8 unsigned 32-bit values at a 4-byte aligned range
straddling a page boundary via the cached path (full-page fetches at 4-byte
granularity, copied byte-for-byte into page buffers, then assembled) yields
the identical sequence as the single uncached read of the same range against
the same remote byte oracle. -/
theorem c8_cached_uncached_roundtrip (mem : Nat → Nat) (a : Nat)
    (hm : ∀ x, mem x < 256) (ha : RETRIEVAL_SIZE ∣ a)
    (hstraddle : PAGE_SIZE < a % PAGE_SIZE + 8 * RETRIEVAL_SIZE) :
    cachedArrayReadU32 mem a 8 =
      .array (List.map (fun v : Nat => (v : Int)) (uncachedArrayReadU32 mem a 8)) := by
  rw [cachedArrayReadU32_eq mem a 8 hm ha]
  congr 1

/-- Witness for C8 at concrete inputs: the zero oracle, address 4080 — a
4-aligned range whose 32 bytes straddle the boundary at 4096. -/
theorem c8_cached_uncached_roundtrip_witness :
    (∀ x, (fun _ => 0 : Nat → Nat) x < 256) ∧
    RETRIEVAL_SIZE ∣ (4080 : Nat) ∧
    PAGE_SIZE < 4080 % PAGE_SIZE + 8 * RETRIEVAL_SIZE ∧
    cachedArrayReadU32 (fun _ => 0) 4080 8 =
      .array (List.map (fun v : Nat => (v : Int)) (uncachedArrayReadU32 (fun _ => 0) 4080 8)) := by
  refine ⟨fun x => by norm_num, ⟨1020, rfl⟩, by decide, ?_⟩
  exact c8_cached_uncached_roundtrip (fun _ => 0) 4080 (fun x => by norm_num)
    ⟨1020, rfl⟩ (by decide)

end MemoryCache
